import Mathlib

/-!
Verification of the Compressed Symmetry Theory demo (`cst_demo.py`).

The program works with n×n binary grids stored row-major as flat tuples.
We embed grids as `List ℕ` (entries 0/1), Python ints as `ℕ`/`ℤ`, Python
floats as `ℝ` (exact arithmetic), and model the one Python-raisable
operation relevant to the claims (division by a zero sample count) with
`Except`.
-/

namespace CST

/-- Embeds `rotate90_indices(n)`: index map for the 90° clockwise rotation
of an n×n grid stored row-major; destination `(r,c)` takes from source
`(n-1-c, r)`. -/
def rotate90_indices (n : ℕ) : List ℕ :=
  (List.range n).flatMap (fun r => (List.range n).map (fun c => (n - 1 - c) * n + r))

/-- Embeds `apply_map(vec, index_map)`: `out[i] = vec[index_map[i]]`.
Out-of-range indices (never produced by `rotate90_indices` on well-sized
input) default to 0. -/
def apply_map (vec : List ℕ) (index_map : List ℕ) : List ℕ :=
  index_map.map (fun i => vec.getD i 0)

/-- Embeds `rotate(vec, n, k, rot90_map)`: apply the map `k % 4` times. -/
def rotate (vec : List ℕ) (_n : ℕ) (k : ℕ) (rot90_map : List ℕ) : List ℕ :=
  (fun v => apply_map v rot90_map)^[k % 4] vec

/-- Embeds `int_to_bits(n, bits)`: big-endian bit list of length `bits`. -/
def int_to_bits (v : ℕ) (bits : ℕ) : List ℕ :=
  (List.range bits).map (fun i => (v >>> (bits - 1 - i)) &&& 1)

/-- Embeds `bits_to_int(bits)`: fold `v = (v << 1) | (b & 1)`. -/
def bits_to_int (bits : List ℕ) : ℕ :=
  bits.foldl (fun v b => (v <<< 1) ||| (b &&& 1)) 0

/-- Python tuple comparison `<` on flat grids: lexicographic, element by
element, a strict prefix being smaller. -/
def lexLt : List ℕ → List ℕ → Bool
  | _, [] => false
  | [], _ :: _ => true
  | a :: as, b :: bs => if a < b then true else if b < a then false else lexLt as bs

/-- Python `min` over a nonempty list `x :: l` of tuples: fold keeping the
current best, replacing it only on a strictly smaller element. -/
def pyListMin (x : List ℕ) (l : List (List ℕ)) : List ℕ :=
  l.foldl (fun best e => if lexLt e best then e else best) x

/-- Embeds `canonical_representative(x, n, rot90_map)`: the minimum of the
four rotations `[x, R x, R² x, R³ x]` under Python tuple order. -/
def canonical_representative (x : List ℕ) (_n : ℕ) (rot90_map : List ℕ) : List ℕ :=
  let c1 := apply_map x rot90_map
  let c2 := apply_map c1 rot90_map
  let c3 := apply_map c2 rot90_map
  pyListMin x [c1, c2, c3]

/-- Embeds `orbit_size(x, n, rot90_map)`: the number of distinct integer
encodings among the four successive rotations. -/
def orbit_size (x : List ℕ) (_n : ℕ) (rot90_map : List ℕ) : ℕ :=
  let x1 := apply_map x rot90_map
  let x2 := apply_map x1 rot90_map
  let x3 := apply_map x2 rot90_map
  [bits_to_int x, bits_to_int x1, bits_to_int x2, bits_to_int x3].dedup.length

/-- Embeds `invariant_cost(x, n)`: count of 1s modulo 5. -/
def invariant_cost (x : List ℕ) (_n : ℕ) : ℕ :=
  x.sum % 5

/-- Update test from the search loops: `best is None or c < best`. -/
def bestUpd (best : Option ℕ) (c : ℕ) : Bool :=
  match best with
  | none => true
  | some b => c < b

/-- Raw scan of `brute_force_search`: evaluate every sample in order,
count evaluations, break the first time a new best of 0 is found. -/
def raw_loop (n : ℕ) : List (List ℕ) → Option ℕ → ℕ → ℕ
  | [], _, evals => evals
  | x :: rest, best, evals =>
    let c := invariant_cost x n
    if bestUpd best c then
      (if c = 0 then evals + 1 else raw_loop n rest (some c) (evals + 1))
    else raw_loop n rest best (evals + 1)

/-- Orbit-restricted scan of `brute_force_search`: canonicalize each sample,
skip representatives whose integer encoding was already seen, otherwise
evaluate, and break on a new best of 0. -/
def orbit_loop (n : ℕ) (m : List ℕ) : List (List ℕ) → List ℕ → Option ℕ → ℕ → ℕ
  | [], _, _, evals => evals
  | x :: rest, seen, best2, evals =>
    let rep := canonical_representative x n m
    let ri := bits_to_int rep
    if ri ∈ seen then orbit_loop n m rest seen best2 evals
    else
      let c := invariant_cost rep n
      if bestUpd best2 c then
        (if c = 0 then evals + 1 else orbit_loop n m rest (ri :: seen) (some c) (evals + 1))
      else orbit_loop n m rest (ri :: seen) best2 (evals + 1)

/-- Embeds `brute_force_search(samples, n)`: returns `(evals_raw, evals_orbit)`. -/
def brute_force_search (samples : List (List ℕ)) (n : ℕ) : ℕ × ℕ :=
  (raw_loop n samples none 0,
   orbit_loop n (rotate90_indices n) samples [] none 0)

/-- The single Python-raisable arithmetic event the claims mention:
division by a zero count. -/
inductive PyError where
  | zeroDivision
deriving DecidableEq

/-- Embeds `int.to_bytes(len, 'big')`: big-endian byte list of length `len`. -/
def to_bytes (v : ℕ) (len : ℕ) : List ℕ :=
  (List.range len).map (fun i => (v >>> (8 * (len - 1 - i))) % 256)

/-- Embeds `sci_via_compression(samples, n, rot90_map)`, parametric over the
byte compressor (`zlib.compress` length).  The code packs raw and
canonicalized grids into byte buffers, compresses both, and only then
divides by `len(samples)`; a zero-length sample list raises
`ZeroDivisionError` at that division, modelled as `Except.error`. -/
def sci_via_compression (compress : List ℕ → ℕ) (samples : List (List ℕ))
    (n : ℕ) (rot90_map : List ℕ) : Except PyError ℚ :=
  let bits := n * n
  let bytes_per := (bits + 7) / 8
  let raw := samples.flatMap (fun x => to_bytes (bits_to_int x) bytes_per)
  let canon := samples.flatMap
    (fun x => to_bytes (bits_to_int (canonical_representative x n rot90_map)) bytes_per)
  let L_raw := compress raw
  let L_canon := compress canon
  if samples.length = 0 then Except.error PyError.zeroDivision
  else Except.ok (((L_raw : ℚ) - (L_canon : ℚ)) * 8 / (samples.length : ℚ))

/-- Distinct keys of a Python `Counter` in insertion (first-occurrence)
order. -/
def pyDedup (l : List (ℤ × ℤ)) : List (ℤ × ℤ) :=
  l.foldl (fun acc a => if a ∈ acc then acc else acc ++ [a]) []

/-- Embeds `empirical_mi(pairs)`: iterate over the distinct observed pairs,
accumulating `pxy * log2(pxy / (px * py))` with empirical frequencies
`count / N`.  The divisions by `N` sit inside the loop over observed
pairs; a division with `N = 0` is modelled as `Except.error`. -/
noncomputable def empirical_mi (pairs : List (ℤ × ℤ)) : Except PyError ℝ :=
  let N := pairs.length
  (pyDedup pairs).foldl
    (fun acc xy =>
      match acc with
      | Except.error e => Except.error e
      | Except.ok mi =>
        if N = 0 then Except.error PyError.zeroDivision
        else
          let px : ℝ := ((pairs.map Prod.fst).count xy.1 : ℝ) / (N : ℝ)
          let py : ℝ := ((pairs.map Prod.snd).count xy.2 : ℝ) / (N : ℝ)
          let pxy : ℝ := (pairs.count xy : ℝ) / (N : ℝ)
          Except.ok (mi + pxy * Real.logb 2 (pxy / (px * py))))
    (Except.ok 0)

/-- The plug-in mutual-information estimate as the specification states it:
the sum over exactly the distinct observed pairs of
`p(x,y) * log2(p(x,y) / (p(x) p(y)))` with empirical frequencies
`count / N`; unobserved combinations contribute nothing. -/
noncomputable def mi_plug_in (pairs : List (ℤ × ℤ)) : ℝ :=
  ∑ xy ∈ pairs.toFinset,
    ((pairs.count xy : ℝ) / (pairs.length : ℝ)) *
      Real.logb 2 (((pairs.count xy : ℝ) / (pairs.length : ℝ)) /
        ((((pairs.map Prod.fst).count xy.1 : ℝ) / (pairs.length : ℝ)) *
         (((pairs.map Prod.snd).count xy.2 : ℝ) / (pairs.length : ℝ))))

/-! ### Index algebra for the rotation map -/

/-- The index transformation underlying `rotate90_indices`: position `j`
of the rotated grid reads position `sfun n j` of the original. -/
def sfun (n j : ℕ) : ℕ :=
  (n - 1 - j % n) * n + j / n

theorem div_mul_add (n : ℕ) (hn : 0 < n) (a b : ℕ) (hb : b < n) :
    (a * n + b) / n = a ∧ (a * n + b) % n = b := by
  constructor
  · rw [Nat.mul_comm, Nat.mul_add_div hn, Nat.div_eq_of_lt hb, Nat.add_zero]
  · rw [Nat.mul_comm, Nat.mul_add_mod, Nat.mod_eq_of_lt hb]

theorem sfun_rowcol (n : ℕ) (hn : 0 < n) (a b : ℕ) (hb : b < n) :
    sfun n (a * n + b) = (n - 1 - b) * n + a := by
  unfold sfun
  rw [(div_mul_add n hn a b hb).1, (div_mul_add n hn a b hb).2]

theorem rowcol_lt (n : ℕ) {a b : ℕ} (ha : a < n) (hb : b < n) :
    a * n + b < n * n := by
  have h1 : a * n ≤ (n - 1) * n := Nat.mul_le_mul_right n (by omega)
  have h2 : (n - 1) * n + n = n * n := by
    cases n with
    | zero => simp
    | succ m => simp [Nat.succ_sub_one]; ring
  omega

theorem sfun_lt (n : ℕ) (hn : 0 < n) {j : ℕ} (hj : j < n * n) :
    sfun n j < n * n := by
  unfold sfun
  have h1 : j % n < n := Nat.mod_lt _ hn
  have h2 : j / n < n := by
    rw [Nat.div_lt_iff_lt_mul hn]; exact hj
  exact rowcol_lt n (by omega) h2

theorem sfun_four (n : ℕ) (hn : 0 < n) {j : ℕ} (hj : j < n * n) :
    sfun n (sfun n (sfun n (sfun n j))) = j := by
  have hc : j % n < n := Nat.mod_lt _ hn
  have hr : j / n < n := by rw [Nat.div_lt_iff_lt_mul hn]; exact hj
  have key : ∀ r c, r < n → c < n →
      sfun n (sfun n (sfun n (sfun n (r * n + c)))) = r * n + c := by
    intro r c hr hc
    rw [sfun_rowcol n hn r c hc]
    rw [sfun_rowcol n hn _ _ hr]
    rw [sfun_rowcol n hn _ _ (show n - 1 - c < n by omega)]
    rw [Nat.sub_sub_self (show c ≤ n - 1 by omega)]
    rw [sfun_rowcol n hn _ _ (show n - 1 - r < n by omega)]
    rw [Nat.sub_sub_self (show r ≤ n - 1 by omega)]
  have hj' : j = (j / n) * n + (j % n) := by
    rw [Nat.mul_comm]; exact (Nat.div_add_mod j n).symm
  rw [hj']
  exact key _ _ hr hc

theorem range_flatMap_map {α : Type} (n : ℕ) (hn : 0 < n) (g : ℕ → ℕ → α) :
    ∀ k, (List.range k).flatMap (fun r => (List.range n).map (g r)) =
      (List.range (k * n)).map (fun j => g (j / n) (j % n)) := by
  intro k
  induction k with
  | zero => simp
  | succ k ih =>
    rw [List.range_succ, List.flatMap_append, ih]
    have hkn : (k + 1) * n = k * n + n := by ring
    rw [hkn, List.range_add, List.map_append]
    congr 1
    · simp only [List.flatMap_cons, List.flatMap_nil, List.append_nil]
      rw [List.map_map]
      apply List.map_congr_left
      intro c hc
      have hcn : c < n := List.mem_range.mp hc
      simp only [Function.comp]
      rw [(div_mul_add n hn k c hcn).1, (div_mul_add n hn k c hcn).2]

theorem rotate90_indices_eq (n : ℕ) (hn : 0 < n) :
    rotate90_indices n = (List.range (n * n)).map (sfun n) := by
  unfold rotate90_indices
  rw [range_flatMap_map n hn (fun r c => (n - 1 - c) * n + r) n]
  rfl

theorem length_rotate90_indices (n : ℕ) : (rotate90_indices n).length = n * n := by
  rcases Nat.eq_zero_or_pos n with h | h
  · subst h; rfl
  · rw [rotate90_indices_eq n h]; simp

theorem apply_map_length (v m : List ℕ) : (apply_map v m).length = m.length := by
  simp [apply_map]

theorem getD_map_range {α : Type} (N : ℕ) (f : ℕ → α) (d : α) {i : ℕ} (hi : i < N) :
    ((List.range N).map f).getD i d = f i := by
  rw [List.getD_eq_getElem _ _ (by simp [hi])]
  simp

theorem map_getD_range (v : List ℕ) :
    (List.range v.length).map (fun j => v.getD j 0) = v := by
  apply List.ext_getElem (by simp)
  intro i h1 h2
  simp only [List.getElem_map, List.getElem_range]
  exact List.getD_eq_getElem v 0 h2

theorem apply_map_rot (n : ℕ) (hn : 0 < n) (v : List ℕ) :
    apply_map v (rotate90_indices n) =
      (List.range (n * n)).map (fun j => v.getD (sfun n j) 0) := by
  rw [rotate90_indices_eq n hn]
  unfold apply_map
  rw [List.map_map]
  rfl

theorem rot_compose (n : ℕ) (hn : 0 < n) (v : List ℕ) (g : ℕ → ℕ) :
    apply_map ((List.range (n * n)).map (fun j => v.getD (g j) 0)) (rotate90_indices n)
      = (List.range (n * n)).map (fun j => v.getD (g (sfun n j)) 0) := by
  rw [apply_map_rot n hn]
  apply List.map_congr_left
  intro j hj
  have hj' : j < n * n := List.mem_range.mp hj
  have hs : sfun n j < n * n := sfun_lt n hn hj'
  exact getD_map_range (n * n) (fun j => v.getD (g j) 0) 0 hs

theorem rot4_id (n : ℕ) (hn : 0 < n) (v : List ℕ) (hv : v.length = n * n) :
    apply_map (apply_map (apply_map (apply_map v (rotate90_indices n))
      (rotate90_indices n)) (rotate90_indices n)) (rotate90_indices n) = v := by
  have s1 : apply_map v (rotate90_indices n) =
      (List.range (n * n)).map (fun j => v.getD (sfun n j) 0) := by
    rw [apply_map_rot n hn]
  have s2 : apply_map ((List.range (n * n)).map (fun j => v.getD (sfun n j) 0))
      (rotate90_indices n)
      = (List.range (n * n)).map (fun j => v.getD (sfun n (sfun n j)) 0) :=
    rot_compose n hn v (sfun n)
  have s3 : apply_map ((List.range (n * n)).map (fun j => v.getD (sfun n (sfun n j)) 0))
      (rotate90_indices n)
      = (List.range (n * n)).map (fun j => v.getD (sfun n (sfun n (sfun n j))) 0) :=
    rot_compose n hn v (fun j => sfun n (sfun n j))
  have s4 : apply_map ((List.range (n * n)).map
        (fun j => v.getD (sfun n (sfun n (sfun n j))) 0)) (rotate90_indices n)
      = (List.range (n * n)).map
        (fun j => v.getD (sfun n (sfun n (sfun n (sfun n j)))) 0) :=
    rot_compose n hn v (fun j => sfun n (sfun n (sfun n j)))
  rw [s1, s2, s3, s4]
  have : (List.range (n * n)).map
        (fun j => v.getD (sfun n (sfun n (sfun n (sfun n j)))) 0)
      = (List.range (n * n)).map (fun j => v.getD j 0) := by
    apply List.map_congr_left
    intro j hj
    rw [sfun_four n hn (List.mem_range.mp hj)]
  rw [this, ← hv, map_getD_range]

theorem rotate90_indices_perm (n : ℕ) (hn : 0 < n) :
    (rotate90_indices n).Perm (List.range (n * n)) := by
  rw [rotate90_indices_eq n hn]
  apply List.Subperm.perm_of_length_le ?_ (by simp)
  apply List.subperm_of_subset ?_ ?_
  · apply List.Nodup.map_on ?_ (List.nodup_range _)
    intro i hi j hj h
    have hi' : i < n * n := List.mem_range.mp hi
    have hj' : j < n * n := List.mem_range.mp hj
    calc i = sfun n (sfun n (sfun n (sfun n i))) := (sfun_four n hn hi').symm
      _ = sfun n (sfun n (sfun n (sfun n j))) := by rw [h]
      _ = j := sfun_four n hn hj'
  · intro x hx
    rw [List.mem_map] at hx
    obtain ⟨j, hj, rfl⟩ := hx
    exact List.mem_range.mpr (sfun_lt n hn (List.mem_range.mp hj))

theorem apply_map_sum (n : ℕ) (hn : 0 < n) (v : List ℕ) (hv : v.length = n * n) :
    (apply_map v (rotate90_indices n)).sum = v.sum := by
  unfold apply_map
  rw [((rotate90_indices_perm n hn).map (fun i => v.getD i 0)).sum_eq]
  rw [← hv, map_getD_range]

theorem apply_map_binary {v : List ℕ} (hb : ∀ b ∈ v, b ≤ 1) (m : List ℕ) :
    ∀ b ∈ apply_map v m, b ≤ 1 := by
  intro b hbm
  unfold apply_map at hbm
  rw [List.mem_map] at hbm
  obtain ⟨i, _, rfl⟩ := hbm
  by_cases h : i < v.length
  · rw [List.getD_eq_getElem _ _ h]
    exact hb _ (List.getElem_mem h)
  · rw [List.getD_eq_default _ _ (by omega)]
    omega

/-! ### Python tuple order and `min` -/

theorem lexLt_irrefl (a : List ℕ) : lexLt a a = false := by
  induction a with
  | nil => rfl
  | cons x xs ih => simp [lexLt, ih]

theorem lexLt_cons (x y : ℕ) (xs ys : List ℕ) :
    (lexLt (x :: xs) (y :: ys) = true) ↔ (x < y ∨ (x = y ∧ lexLt xs ys = true)) := by
  show (if x < y then true else if y < x then false else lexLt xs ys) = true ↔ _
  split_ifs with h1 h2
  · simp [h1]
  · simp only [Bool.false_eq_true, false_iff]
    rintro (h | ⟨rfl, -⟩)
    · exact h1 h
    · omega
  · have hxy : x = y := by omega
    simp [hxy]

theorem lexLt_trans : ∀ {a b c : List ℕ},
    lexLt a b = true → lexLt b c = true → lexLt a c = true := by
  intro a
  induction a with
  | nil =>
    intro b c h1 h2
    cases b with
    | nil => simp [lexLt] at h1
    | cons y ys =>
      cases c with
      | nil => simp [lexLt] at h2
      | cons z zs => simp [lexLt]
  | cons x xs ih =>
    intro b c h1 h2
    cases b with
    | nil => simp [lexLt] at h1
    | cons y ys =>
      cases c with
      | nil => simp [lexLt] at h2
      | cons z zs =>
        rw [lexLt_cons] at h1 h2 ⊢
        rcases h1 with h1 | ⟨rfl, h1⟩
        · rcases h2 with h2 | ⟨rfl, h2⟩
          · exact Or.inl (by omega)
          · exact Or.inl h1
        · rcases h2 with h2 | ⟨rfl, h2⟩
          · exact Or.inl h2
          · exact Or.inr ⟨rfl, ih h1 h2⟩

theorem lexLt_total : ∀ (a b : List ℕ), lexLt a b = true ∨ a = b ∨ lexLt b a = true := by
  intro a
  induction a with
  | nil =>
    intro b
    cases b with
    | nil => exact Or.inr (Or.inl rfl)
    | cons y ys => exact Or.inl (by simp [lexLt])
  | cons x xs ih =>
    intro b
    cases b with
    | nil => exact Or.inr (Or.inr (by simp [lexLt]))
    | cons y ys =>
      rcases Nat.lt_trichotomy x y with h | h | h
      · exact Or.inl ((lexLt_cons x y xs ys).mpr (Or.inl h))
      · subst h
        rcases ih ys with h2 | h2 | h2
        · exact Or.inl ((lexLt_cons x x xs ys).mpr (Or.inr ⟨rfl, h2⟩))
        · exact Or.inr (Or.inl (by rw [h2]))
        · exact Or.inr (Or.inr ((lexLt_cons x x ys xs).mpr (Or.inr ⟨rfl, h2⟩)))
      · exact Or.inr (Or.inr ((lexLt_cons y x ys xs).mpr (Or.inl h)))

theorem lexLt_asymm {a b : List ℕ} (h : lexLt a b = true) : lexLt b a = false := by
  by_contra hcon
  rw [Bool.not_eq_false] at hcon
  have := lexLt_trans h hcon
  rw [lexLt_irrefl] at this
  exact Bool.false_ne_true this

theorem pyListMin_mem (x : List ℕ) (l : List (List ℕ)) : pyListMin x l ∈ x :: l := by
  induction l generalizing x with
  | nil => simp [pyListMin]
  | cons a t ih =>
    show pyListMin (if lexLt a x then a else x) t ∈ x :: a :: t
    rcases List.mem_cons.mp (ih (if lexLt a x then a else x)) with h | h
    · rw [h]
      split_ifs with hc
      · exact List.mem_cons_of_mem _ (List.mem_cons_self _ _)
      · exact List.mem_cons_self _ _
    · exact List.mem_cons_of_mem _ (List.mem_cons_of_mem _ h)

theorem pyListMin_not_lt (x : List ℕ) (l : List (List ℕ)) :
    ∀ e ∈ x :: l, lexLt e (pyListMin x l) = false := by
  induction l generalizing x with
  | nil =>
    intro e he
    rw [List.mem_singleton] at he
    subst he
    simp [pyListMin, lexLt_irrefl]
  | cons a t ih =>
    intro e he
    show lexLt e (pyListMin (if lexLt a x then a else x) t) = false
    by_cases hax : lexLt a x = true
    · rw [if_pos hax]
      have hin := ih a
      have har : lexLt a (pyListMin a t) = false := hin a (List.mem_cons_self _ _)
      rcases List.mem_cons.mp he with rfl | he'
      · by_contra hcon
        rw [Bool.not_eq_false] at hcon
        have := lexLt_trans hax hcon
        rw [har] at this
        exact Bool.false_ne_true this
      · rcases List.mem_cons.mp he' with rfl | he''
        · exact har
        · exact hin e (List.mem_cons_of_mem _ he'')
    · rw [if_neg hax]
      have hin := ih x
      have hxr : lexLt x (pyListMin x t) = false := hin x (List.mem_cons_self _ _)
      rcases List.mem_cons.mp he with rfl | he'
      · exact hxr
      · rcases List.mem_cons.mp he' with rfl | he''
        · rcases lexLt_total e x with h | h | h
          · exact absurd h hax
          · rw [h]; exact hxr
          · by_contra hcon
            rw [Bool.not_eq_false] at hcon
            have := lexLt_trans h hcon
            rw [hxr] at this
            exact Bool.false_ne_true this
        · exact hin e (List.mem_cons_of_mem _ he'')

theorem pyListMin_eq_of_mem_iff {x y : List ℕ} {l l' : List (List ℕ)}
    (h : ∀ e, e ∈ x :: l ↔ e ∈ y :: l') :
    pyListMin x l = pyListMin y l' := by
  have m1 : pyListMin x l ∈ y :: l' := (h _).mp (pyListMin_mem x l)
  have m2 : pyListMin y l' ∈ x :: l := (h _).mpr (pyListMin_mem y l')
  have f1 : lexLt (pyListMin x l) (pyListMin y l') = false := pyListMin_not_lt y l' _ m1
  have f2 : lexLt (pyListMin y l') (pyListMin x l) = false := pyListMin_not_lt x l _ m2
  rcases lexLt_total (pyListMin x l) (pyListMin y l') with h1 | h1 | h1
  · rw [f1] at h1; exact absurd h1 Bool.false_ne_true
  · exact h1
  · rw [f2] at h1; exact absurd h1 Bool.false_ne_true

/-! ### Canonicalization -/

theorem canonical_representative_mem (x : List ℕ) (n : ℕ) (m : List ℕ) :
    canonical_representative x n m = x ∨
    canonical_representative x n m = apply_map x m ∨
    canonical_representative x n m = apply_map (apply_map x m) m ∨
    canonical_representative x n m = apply_map (apply_map (apply_map x m) m) m := by
  have h := pyListMin_mem x
    [apply_map x m, apply_map (apply_map x m) m, apply_map (apply_map (apply_map x m) m) m]
  simpa [canonical_representative, List.mem_cons] using h

theorem canonical_inv (n : ℕ) (hn : 0 < n) (v : List ℕ) (hv : v.length = n * n) :
    canonical_representative (apply_map v (rotate90_indices n)) n (rotate90_indices n)
      = canonical_representative v n (rotate90_indices n) := by
  have h4 : apply_map (apply_map (apply_map (apply_map v (rotate90_indices n))
      (rotate90_indices n)) (rotate90_indices n)) (rotate90_indices n) = v :=
    rot4_id n hn v hv
  show pyListMin (apply_map v (rotate90_indices n))
      [apply_map (apply_map v (rotate90_indices n)) (rotate90_indices n),
       apply_map (apply_map (apply_map v (rotate90_indices n)) (rotate90_indices n))
         (rotate90_indices n),
       apply_map (apply_map (apply_map (apply_map v (rotate90_indices n))
         (rotate90_indices n)) (rotate90_indices n)) (rotate90_indices n)]
    = pyListMin v
      [apply_map v (rotate90_indices n),
       apply_map (apply_map v (rotate90_indices n)) (rotate90_indices n),
       apply_map (apply_map (apply_map v (rotate90_indices n)) (rotate90_indices n))
         (rotate90_indices n)]
  rw [h4]
  apply pyListMin_eq_of_mem_iff
  intro e
  simp only [List.mem_cons, List.not_mem_nil, or_false]
  tauto

theorem canonical_idem (n : ℕ) (hn : 0 < n) (v : List ℕ) (hv : v.length = n * n) :
    canonical_representative (canonical_representative v n (rotate90_indices n)) n
      (rotate90_indices n) = canonical_representative v n (rotate90_indices n) := by
  have hRv : (apply_map v (rotate90_indices n)).length = n * n := by
    rw [apply_map_length, length_rotate90_indices]
  have hR2v : (apply_map (apply_map v (rotate90_indices n)) (rotate90_indices n)).length
      = n * n := by
    rw [apply_map_length, length_rotate90_indices]
  rcases canonical_representative_mem v n (rotate90_indices n) with h | h | h | h <;> rw [h]
  · exact h
  · rw [canonical_inv n hn v hv]
    exact h
  · rw [canonical_inv n hn _ hRv, canonical_inv n hn v hv]
    exact h
  · rw [canonical_inv n hn _ hR2v, canonical_inv n hn _ hRv, canonical_inv n hn v hv]
    exact h

/-! ### Integer encoding of bit lists -/

theorem two_mul_or_one (v : ℕ) : 2 * v ||| 1 = 2 * v + 1 := by
  apply Nat.eq_of_testBit_eq
  intro i
  cases i with
  | zero => simp [Nat.testBit_or, Nat.mul_add_mod]
  | succ j =>
    rw [Nat.testBit_or]
    simp [Nat.testBit_succ, Nat.mul_add_div, Nat.mul_div_cancel_left]

theorem step_eq (v b : ℕ) : (v <<< 1) ||| (b &&& 1) = 2 * v + b % 2 := by
  rw [Nat.shiftLeft_eq, pow_one, Nat.and_one_is_mod, Nat.mul_comm]
  rcases Nat.mod_two_eq_zero_or_one b with h | h
  · rw [h]; simp
  · rw [h]; exact two_mul_or_one v

theorem bits_to_int_foldl (l : List ℕ) : ∀ v : ℕ,
    l.foldl (fun v b => (v <<< 1) ||| (b &&& 1)) v = v * 2 ^ l.length + bits_to_int l := by
  induction l with
  | nil => intro v; simp [bits_to_int]
  | cons b t ih =>
    intro v
    show t.foldl _ ((v <<< 1) ||| (b &&& 1)) = _
    rw [step_eq, ih (2 * v + b % 2)]
    have hb : bits_to_int (b :: t) = (b % 2) * 2 ^ t.length + bits_to_int t := by
      show t.foldl _ ((0 <<< 1) ||| (b &&& 1)) = _
      rw [step_eq, ih (2 * 0 + b % 2)]
      ring
    rw [hb]
    simp only [List.length_cons, pow_succ]
    ring

theorem bits_to_int_cons (b : ℕ) (t : List ℕ) :
    bits_to_int (b :: t) = (b % 2) * 2 ^ t.length + bits_to_int t := by
  show t.foldl _ ((0 <<< 1) ||| (b &&& 1)) = _
  rw [step_eq, bits_to_int_foldl t (2 * 0 + b % 2)]
  ring

theorem bits_to_int_lt (l : List ℕ) : bits_to_int l < 2 ^ l.length := by
  induction l with
  | nil => simp [bits_to_int]
  | cons b t ih =>
    rw [bits_to_int_cons]
    have h1 : b % 2 ≤ 1 := by omega
    have h2 : (b % 2) * 2 ^ t.length ≤ 1 * 2 ^ t.length := Nat.mul_le_mul_right _ h1
    simp only [List.length_cons, pow_succ]
    omega

theorem int_to_bits_succ (v L : ℕ) :
    int_to_bits v (L + 1) = ((v >>> L) &&& 1) :: int_to_bits v L := by
  unfold int_to_bits
  rw [List.range_succ_eq_map, List.map_cons, List.map_map]
  congr 1
  apply List.map_congr_left
  intro i hi
  simp only [Function.comp]
  congr 2
  omega

theorem int_to_bits_mod (v L b : ℕ) :
    int_to_bits (b * 2 ^ L + v) L = int_to_bits v L := by
  unfold int_to_bits
  apply List.map_congr_left
  intro i hi
  have hiL : i < L := List.mem_range.mp hi
  have hkL : L - 1 - i < L := by omega
  rw [Nat.shiftRight_eq_div_pow, Nat.shiftRight_eq_div_pow]
  have h2 : b * 2 ^ L = (b * 2 ^ (L - (L - 1 - i))) * 2 ^ (L - 1 - i) := by
    rw [mul_assoc, ← pow_add]
    congr 2
    omega
  rw [h2, Nat.add_comm, Nat.add_mul_div_right _ _ (Nat.pos_pow_of_pos _ (by omega))]
  rw [Nat.and_one_is_mod, Nat.and_one_is_mod]
  have h3 : L - (L - 1 - i) = (L - (L - 1 - i) - 1) + 1 := by omega
  rw [h3, pow_succ, ← mul_assoc, Nat.add_mul_mod_self_right]

theorem int_to_bits_roundtrip (g : List ℕ) (hb : ∀ x ∈ g, x ≤ 1) :
    int_to_bits (bits_to_int g) g.length = g := by
  induction g with
  | nil => rfl
  | cons b t ih =>
    have hbt : ∀ x ∈ t, x ≤ 1 := fun x hx => hb x (List.mem_cons_of_mem _ hx)
    have hb1 : b ≤ 1 := hb b (List.mem_cons_self _ _)
    rw [bits_to_int_cons]
    show int_to_bits _ (t.length + 1) = _
    rw [int_to_bits_succ]
    have hmod : b % 2 = b := Nat.mod_eq_of_lt (by omega)
    have hhead : ((b % 2 * 2 ^ t.length + bits_to_int t) >>> t.length) &&& 1 = b := by
      rw [Nat.shiftRight_eq_div_pow, Nat.add_comm,
        Nat.add_mul_div_right _ _ (Nat.pos_pow_of_pos _ (by omega)),
        Nat.div_eq_of_lt (bits_to_int_lt t), Nat.zero_add, Nat.and_one_is_mod]
      omega
    have htail : int_to_bits (b % 2 * 2 ^ t.length + bits_to_int t) t.length = t := by
      rw [int_to_bits_mod, ih hbt]
    rw [hhead, htail]

theorem bits_to_int_inj {a b : List ℕ} (ha : ∀ x ∈ a, x ≤ 1) (hb : ∀ x ∈ b, x ≤ 1)
    (hlen : a.length = b.length) (h : bits_to_int a = bits_to_int b) : a = b := by
  have hr := int_to_bits_roundtrip a ha
  rw [h, hlen] at hr
  rw [← hr, int_to_bits_roundtrip b hb]

theorem lexLt_iff_bits_lt : ∀ {a b : List ℕ}, (∀ x ∈ a, x ≤ 1) → (∀ x ∈ b, x ≤ 1) →
    a.length = b.length → (lexLt a b = true ↔ bits_to_int a < bits_to_int b) := by
  intro a
  induction a with
  | nil =>
    intro b _ _ hlen
    have hb : b = [] := List.length_eq_zero.mp hlen.symm
    subst hb
    simp [lexLt, bits_to_int]
  | cons x xs ih =>
    intro b hxa hxb hlen
    cases b with
    | nil => simp at hlen
    | cons y ys =>
      have hlen' : xs.length = ys.length := by simpa using hlen
      have hx1 : x ≤ 1 := hxa x (List.mem_cons_self _ _)
      have hy1 : y ≤ 1 := hxb y (List.mem_cons_self _ _)
      have hxs : ∀ v ∈ xs, v ≤ 1 := fun v hv => hxa v (List.mem_cons_of_mem _ hv)
      have hys : ∀ v ∈ ys, v ≤ 1 := fun v hv => hxb v (List.mem_cons_of_mem _ hv)
      rw [lexLt_cons, bits_to_int_cons, bits_to_int_cons, hlen']
      have hIa : bits_to_int xs < 2 ^ ys.length := hlen' ▸ bits_to_int_lt xs
      have hIb : bits_to_int ys < 2 ^ ys.length := bits_to_int_lt ys
      have hmx : x % 2 = x := Nat.mod_eq_of_lt (by omega)
      have hmy : y % 2 = y := Nat.mod_eq_of_lt (by omega)
      rw [hmx, hmy]
      constructor
      · rintro (h | ⟨rfl, h⟩)
        · have hx0 : x = 0 := by omega
          have hy1' : y = 1 := by omega
          subst hx0; subst hy1'
          simp only [Nat.zero_mul, Nat.one_mul, Nat.zero_add]
          omega
        · have := (ih hxs hys hlen').mp h
          omega
      · intro h
        rcases Nat.lt_trichotomy x y with hxy | rfl | hxy
        · exact Or.inl hxy
        · refine Or.inr ⟨rfl, (ih hxs hys hlen').mpr ?_⟩
          omega
        · exfalso
          have hy0 : y = 0 := by omega
          have hx1' : x = 1 := by omega
          subst hy0; subst hx1'
          simp only [Nat.zero_mul, Nat.one_mul, Nat.zero_add] at h
          omega

/-! ### Orbit structure -/

theorem orbit_dedup_cases (n : ℕ) (hn : 0 < n) (x x1 x2 x3 : List ℕ)
    (hx : x.length = n * n) (hb : ∀ v ∈ x, v ≤ 1)
    (e1 : x1 = apply_map x (rotate90_indices n))
    (e2 : x2 = apply_map x1 (rotate90_indices n))
    (e3 : x3 = apply_map x2 (rotate90_indices n)) :
    [bits_to_int x, bits_to_int x1, bits_to_int x2, bits_to_int x3].dedup.length = 1 ∨
    [bits_to_int x, bits_to_int x1, bits_to_int x2, bits_to_int x3].dedup.length = 2 ∨
    [bits_to_int x, bits_to_int x1, bits_to_int x2, bits_to_int x3].dedup.length = 4 := by
  have hx1 : x1.length = n * n := by rw [e1, apply_map_length, length_rotate90_indices]
  have hx2 : x2.length = n * n := by rw [e2, apply_map_length, length_rotate90_indices]
  have hx3 : x3.length = n * n := by rw [e3, apply_map_length, length_rotate90_indices]
  have hb1 : ∀ v ∈ x1, v ≤ 1 := e1 ▸ apply_map_binary hb _
  have hb2 : ∀ v ∈ x2, v ≤ 1 := e2 ▸ apply_map_binary hb1 _
  have hb3 : ∀ v ∈ x3, v ≤ 1 := e3 ▸ apply_map_binary hb2 _
  have h4 : apply_map x3 (rotate90_indices n) = x := by
    rw [e3, e2, e1]; exact rot4_id n hn x hx
  by_cases h1 : x1 = x
  · left
    have g2 : x2 = x := by rw [e2, h1, ← e1]; exact h1
    have g3 : x3 = x := by rw [e3, g2, ← e1]; exact h1
    rw [h1, g2, g3]
    rw [List.dedup_cons_of_mem (by simp), List.dedup_cons_of_mem (by simp),
      List.dedup_cons_of_mem (by simp)]
    rfl
  · by_cases h2 : x2 = x
    · right; left
      have g3 : x3 = x1 := by rw [e3, h2, ← e1]
      have hE01 : bits_to_int x ≠ bits_to_int x1 := fun h =>
        h1 (bits_to_int_inj hb1 hb (by rw [hx1, hx]) h.symm)
      rw [h2, g3]
      rw [List.dedup_cons_of_mem (by simp), List.dedup_cons_of_mem (by simp),
        List.dedup_cons_of_not_mem (by simp [hE01])]
      rfl
    · right; right
      have g30 : x3 ≠ x := by
        intro h
        rw [h, ← e1] at h4
        exact h1 h4
      have g21 : x2 ≠ x1 := by
        intro h
        have h31 : x3 = x2 := by rw [e3, h, ← e2]; exact h
        rw [h31, ← e3] at h4
        exact h2 (h31 ▸ h4)
      have g31 : x3 ≠ x1 := by
        intro h
        rw [h, ← e2] at h4
        exact h2 h4
      have g32 : x3 ≠ x2 := by
        intro h
        rw [h, ← e3] at h4
        exact h2 (h ▸ h4)
      have hE01 : bits_to_int x ≠ bits_to_int x1 := fun h =>
        h1 (bits_to_int_inj hb1 hb (by rw [hx1, hx]) h.symm)
      have hE02 : bits_to_int x ≠ bits_to_int x2 := fun h =>
        h2 (bits_to_int_inj hb2 hb (by rw [hx2, hx]) h.symm)
      have hE03 : bits_to_int x ≠ bits_to_int x3 := fun h =>
        g30 (bits_to_int_inj hb3 hb (by rw [hx3, hx]) h.symm)
      have hE12 : bits_to_int x1 ≠ bits_to_int x2 := fun h =>
        g21 (bits_to_int_inj hb2 hb1 (by rw [hx2, hx1]) h.symm)
      have hE13 : bits_to_int x1 ≠ bits_to_int x3 := fun h =>
        g31 (bits_to_int_inj hb3 hb1 (by rw [hx3, hx1]) h.symm)
      have hE23 : bits_to_int x2 ≠ bits_to_int x3 := fun h =>
        g32 (bits_to_int_inj hb3 hb2 (by rw [hx3, hx2]) h.symm)
      rw [List.dedup_cons_of_not_mem (by simp [hE01, hE02, hE03]),
        List.dedup_cons_of_not_mem (by simp [hE12, hE13]),
        List.dedup_cons_of_not_mem (by simp [hE23])]
      rfl

/-! ### Canonical representative: length, bits, cost -/

theorem canonical_length (n : ℕ) (x : List ℕ) (hx : x.length = n * n) :
    (canonical_representative x n (rotate90_indices n)).length = n * n := by
  rcases canonical_representative_mem x n (rotate90_indices n) with h | h | h | h <;>
    rw [h] <;> simp [apply_map_length, length_rotate90_indices, hx]

theorem canonical_binary (x : List ℕ) (hb : ∀ v ∈ x, v ≤ 1) (n : ℕ) (m : List ℕ) :
    ∀ v ∈ canonical_representative x n m, v ≤ 1 := by
  rcases canonical_representative_mem x n m with h | h | h | h <;> rw [h]
  · exact hb
  · exact apply_map_binary hb m
  · exact apply_map_binary (apply_map_binary hb m) m
  · exact apply_map_binary (apply_map_binary (apply_map_binary hb m) m) m

theorem canonical_cost (n : ℕ) (hn : 0 < n) (x : List ℕ) (hx : x.length = n * n) :
    invariant_cost (canonical_representative x n (rotate90_indices n)) n
      = invariant_cost x n := by
  have hx1 : (apply_map x (rotate90_indices n)).length = n * n := by
    rw [apply_map_length, length_rotate90_indices]
  have hx2 : (apply_map (apply_map x (rotate90_indices n)) (rotate90_indices n)).length
      = n * n := by
    rw [apply_map_length, length_rotate90_indices]
  rcases canonical_representative_mem x n (rotate90_indices n) with h | h | h | h
  · rw [h]
  · rw [h]
    unfold invariant_cost
    rw [apply_map_sum n hn x hx]
  · rw [h]
    unfold invariant_cost
    rw [apply_map_sum n hn _ hx1, apply_map_sum n hn x hx]
  · rw [h]
    unfold invariant_cost
    rw [apply_map_sum n hn _ hx2, apply_map_sum n hn _ hx1, apply_map_sum n hn x hx]

/-! ### Search loops -/

/-- Number of evaluations the raw scan performs: one per sample up to and
including the first zero-cost sample. -/
def rawCnt (n : ℕ) : List (List ℕ) → ℕ
  | [] => 0
  | x :: rest => if invariant_cost x n = 0 then 1 else 1 + rawCnt n rest

theorem raw_loop_cons (n : ℕ) (x : List ℕ) (rest : List (List ℕ)) (best : Option ℕ) (e : ℕ) :
    raw_loop n (x :: rest) best e =
      if bestUpd best (invariant_cost x n) then
        (if invariant_cost x n = 0 then e + 1
         else raw_loop n rest (some (invariant_cost x n)) (e + 1))
      else raw_loop n rest best (e + 1) := rfl

theorem orbit_loop_cons (n : ℕ) (m : List ℕ) (x : List ℕ) (rest : List (List ℕ))
    (seen : List ℕ) (best2 : Option ℕ) (e : ℕ) :
    orbit_loop n m (x :: rest) seen best2 e =
      if bits_to_int (canonical_representative x n m) ∈ seen then
        orbit_loop n m rest seen best2 e
      else
        if bestUpd best2 (invariant_cost (canonical_representative x n m) n) then
          (if invariant_cost (canonical_representative x n m) n = 0 then e + 1
           else orbit_loop n m rest (bits_to_int (canonical_representative x n m) :: seen)
             (some (invariant_cost (canonical_representative x n m) n)) (e + 1))
        else orbit_loop n m rest (bits_to_int (canonical_representative x n m) :: seen)
          best2 (e + 1) := rfl

theorem bestUpd_zero (best : Option ℕ) (h : ∀ b, best = some b → b ≠ 0) :
    bestUpd best 0 = true := by
  cases best with
  | none => rfl
  | some b =>
    have hb := h b rfl
    simp only [bestUpd, decide_eq_true_eq]
    omega

theorem raw_loop_eq (n : ℕ) : ∀ (l : List (List ℕ)) (best : Option ℕ) (e : ℕ),
    (∀ b, best = some b → b ≠ 0) → raw_loop n l best e = e + rawCnt n l := by
  intro l
  induction l with
  | nil => intro best e _; rfl
  | cons x rest ih =>
    intro best e hbest
    rw [raw_loop_cons]
    by_cases hc : invariant_cost x n = 0
    · rw [if_pos (by rw [hc]; exact bestUpd_zero best hbest), if_pos hc]
      simp [rawCnt, hc]
    · have hrw : rawCnt n (x :: rest) = 1 + rawCnt n rest := by simp [rawCnt, hc]
      rw [hrw]
      rcases Bool.eq_false_or_eq_true (bestUpd best (invariant_cost x n)) with hbu | hbu
      · rw [if_pos hbu, if_neg hc]
        rw [ih (some (invariant_cost x n)) (e + 1) ?_]
        · omega
        · intro b hbeq
          injection hbeq with hbeq
          subst hbeq
          exact hc
      · have hneg : ¬ (bestUpd best (invariant_cost x n) = true) := by simp [hbu]
        rw [if_neg hneg]
        rw [ih best (e + 1) hbest]
        omega

theorem rawCnt_le (n : ℕ) : ∀ l : List (List ℕ), rawCnt n l ≤ l.length := by
  intro l
  induction l with
  | nil => simp [rawCnt]
  | cons x rest ih =>
    by_cases hc : invariant_cost x n = 0 <;> simp [rawCnt, hc] <;> omega

theorem rawCnt_pos (n : ℕ) (l : List (List ℕ)) (h : l ≠ []) : 1 ≤ rawCnt n l := by
  cases l with
  | nil => exact absurd rfl h
  | cons x rest =>
    by_cases hc : invariant_cost x n = 0 <;> simp [rawCnt, hc]

theorem orbit_loop_ge (n : ℕ) (m : List ℕ) : ∀ (l : List (List ℕ)) (seen : List ℕ)
    (best2 : Option ℕ) (e : ℕ), e ≤ orbit_loop n m l seen best2 e := by
  intro l
  induction l with
  | nil => intro seen best2 e; exact le_refl e
  | cons x rest ih =>
    intro seen best2 e
    rw [orbit_loop_cons]
    split_ifs with h1 h2 h3
    · exact ih seen best2 e
    · omega
    · exact le_trans (by omega) (ih _ _ (e + 1))
    · exact le_trans (by omega) (ih _ _ (e + 1))

theorem orbit_loop_le (n : ℕ) (m : List ℕ) : ∀ (l : List (List ℕ)) (seen : List ℕ)
    (best2 : Option ℕ) (e : ℕ), orbit_loop n m l seen best2 e ≤ e + l.length := by
  intro l
  induction l with
  | nil => intro seen best2 e; simp [orbit_loop]
  | cons x rest ih =>
    intro seen best2 e
    rw [orbit_loop_cons]
    split_ifs with h1 h2 h3
    · exact le_trans (ih seen best2 e) (by simp)
    · simp
    · exact le_trans (ih _ _ (e + 1)) (by simp [Nat.add_comm, Nat.add_assoc]; omega)
    · exact le_trans (ih _ _ (e + 1)) (by simp [Nat.add_comm, Nat.add_assoc]; omega)

theorem orbit_loop_pos (n : ℕ) (m : List ℕ) (x : List ℕ) (rest : List (List ℕ)) :
    1 ≤ orbit_loop n m (x :: rest) [] none 0 := by
  rw [orbit_loop_cons]
  rw [if_neg (List.not_mem_nil _)]
  rw [if_pos (by rfl)]
  split_ifs with h
  · omega
  · exact le_trans (by omega) (orbit_loop_ge n m rest _ _ 1)

theorem orbit_le_raw (n : ℕ) (hn : 0 < n) :
    ∀ (l : List (List ℕ)), (∀ g ∈ l, g.length = n * n) → (∀ g ∈ l, ∀ v ∈ g, v ≤ 1) →
    ∀ (seen : List ℕ) (best2 best : Option ℕ) (e_o e_r : ℕ),
    (∀ s ∈ seen, invariant_cost (int_to_bits s (n * n)) n ≠ 0) →
    (∀ b, best2 = some b → b ≠ 0) →
    (∀ b, best = some b → b ≠ 0) →
    e_o ≤ e_r →
    orbit_loop n (rotate90_indices n) l seen best2 e_o ≤ raw_loop n l best e_r := by
  intro l
  induction l with
  | nil =>
    intro _ _ seen best2 best e_o e_r _ _ _ he
    exact he
  | cons x rest ih =>
    intro hlen hbin seen best2 best e_o e_r hseen hb2 hb he
    have hxlen : x.length = n * n := hlen x (List.mem_cons_self _ _)
    have hxbin : ∀ v ∈ x, v ≤ 1 := hbin x (List.mem_cons_self _ _)
    have hrlen : ∀ g ∈ rest, g.length = n * n := fun g hg => hlen g (List.mem_cons_of_mem _ hg)
    have hrbin : ∀ g ∈ rest, ∀ v ∈ g, v ≤ 1 := fun g hg => hbin g (List.mem_cons_of_mem _ hg)
    have hreplen : (canonical_representative x n (rotate90_indices n)).length = n * n :=
      canonical_length n x hxlen
    have hrepbin : ∀ v ∈ canonical_representative x n (rotate90_indices n), v ≤ 1 :=
      canonical_binary x hxbin n _
    have hcost : invariant_cost (canonical_representative x n (rotate90_indices n)) n
        = invariant_cost x n := canonical_cost n hn x hxlen
    have hround : int_to_bits (bits_to_int (canonical_representative x n (rotate90_indices n)))
        (n * n) = canonical_representative x n (rotate90_indices n) := by
      have h := int_to_bits_roundtrip (canonical_representative x n (rotate90_indices n)) hrepbin
      rw [hreplen] at h
      exact h
    rw [raw_loop_cons, orbit_loop_cons]
    by_cases hc : invariant_cost x n = 0
    · have hup : bestUpd best (invariant_cost x n) = true := by
        rw [hc]; exact bestUpd_zero best hb
      rw [if_pos hup, if_pos hc]
      have hnotseen : bits_to_int (canonical_representative x n (rotate90_indices n)) ∉ seen := by
        intro hmem
        have hcon := hseen _ hmem
        rw [hround, hcost] at hcon
        exact hcon hc
      rw [if_neg hnotseen]
      have hup2 : bestUpd best2
          (invariant_cost (canonical_representative x n (rotate90_indices n)) n) = true := by
        rw [hcost, hc]; exact bestUpd_zero best2 hb2
      have hc2 : invariant_cost (canonical_representative x n (rotate90_indices n)) n = 0 := by
        rw [hcost]; exact hc
      rw [if_pos hup2, if_pos hc2]
      omega
    · have hcrep : invariant_cost (canonical_representative x n (rotate90_indices n)) n ≠ 0 := by
        rw [hcost]; exact hc
      have horb : ∀ (best' : Option ℕ), (∀ b, best' = some b → b ≠ 0) →
          (if bits_to_int (canonical_representative x n (rotate90_indices n)) ∈ seen then
            orbit_loop n (rotate90_indices n) rest seen best2 e_o
          else
            if bestUpd best2 (invariant_cost (canonical_representative x n (rotate90_indices n)) n) then
              (if invariant_cost (canonical_representative x n (rotate90_indices n)) n = 0 then e_o + 1
               else orbit_loop n (rotate90_indices n) rest
                 (bits_to_int (canonical_representative x n (rotate90_indices n)) :: seen)
                 (some (invariant_cost (canonical_representative x n (rotate90_indices n)) n)) (e_o + 1))
            else orbit_loop n (rotate90_indices n) rest
              (bits_to_int (canonical_representative x n (rotate90_indices n)) :: seen)
              best2 (e_o + 1))
          ≤ raw_loop n rest best' (e_r + 1) := by
        intro best' hb'
        by_cases hskip : bits_to_int (canonical_representative x n (rotate90_indices n)) ∈ seen
        · rw [if_pos hskip]
          exact ih hrlen hrbin seen best2 best' e_o (e_r + 1) hseen hb2 hb' (by omega)
        · rw [if_neg hskip]
          have hseen' : ∀ s ∈ (bits_to_int (canonical_representative x n (rotate90_indices n))
              :: seen), invariant_cost (int_to_bits s (n * n)) n ≠ 0 := by
            intro s hs
            rcases List.mem_cons.mp hs with rfl | hs'
            · rw [hround]; exact hcrep
            · exact hseen s hs'
          rcases Bool.eq_false_or_eq_true (bestUpd best2
              (invariant_cost (canonical_representative x n (rotate90_indices n)) n))
            with hbu2 | hbu2
          · rw [if_pos hbu2, if_neg hcrep]
            refine ih hrlen hrbin _ _ best' (e_o + 1) (e_r + 1) hseen' ?_ hb' (by omega)
            intro b hbeq
            injection hbeq with hbeq
            subst hbeq
            exact hcrep
          · have hneg2 : ¬ (bestUpd best2
                (invariant_cost (canonical_representative x n (rotate90_indices n)) n) = true) := by
              simp [hbu2]
            rw [if_neg hneg2]
            exact ih hrlen hrbin _ best2 best' (e_o + 1) (e_r + 1) hseen' hb2 hb' (by omega)
      rcases Bool.eq_false_or_eq_true (bestUpd best (invariant_cost x n)) with hbu | hbu
      · rw [if_pos hbu, if_neg hc]
        refine horb (some (invariant_cost x n)) ?_
        intro b hbeq
        injection hbeq with hbeq
        subst hbeq
        exact hc
      · have hneg : ¬ (bestUpd best (invariant_cost x n) = true) := by simp [hbu]
        rw [if_neg hneg]
        exact horb best hb

/-! ### Plug-in mutual information -/

theorem pyDedup_aux (l : List (ℤ × ℤ)) : ∀ acc : List (ℤ × ℤ), acc.Nodup →
    (l.foldl (fun acc a => if a ∈ acc then acc else acc ++ [a]) acc).Nodup ∧
    ∀ a, a ∈ l.foldl (fun acc a => if a ∈ acc then acc else acc ++ [a]) acc ↔
      (a ∈ acc ∨ a ∈ l) := by
  induction l with
  | nil =>
    intro acc h
    exact ⟨h, fun a => by simp⟩
  | cons x t ih =>
    intro acc hacc
    simp only [List.foldl_cons]
    by_cases hx : x ∈ acc
    · rw [if_pos hx]
      obtain ⟨h1, h2⟩ := ih acc hacc
      refine ⟨h1, fun a => ?_⟩
      rw [h2 a, List.mem_cons]
      constructor
      · rintro (h | h)
        · exact Or.inl h
        · exact Or.inr (Or.inr h)
      · rintro (h | h | h)
        · exact Or.inl h
        · exact Or.inl (h ▸ hx)
        · exact Or.inr h
    · rw [if_neg hx]
      have hnd : (acc ++ [x]).Nodup := by
        rw [List.nodup_append]
        refine ⟨hacc, List.nodup_singleton x, ?_⟩
        intro a ha hax
        rw [List.mem_singleton] at hax
        subst hax
        exact hx ha
      obtain ⟨h1, h2⟩ := ih (acc ++ [x]) hnd
      refine ⟨h1, fun a => ?_⟩
      rw [h2 a, List.mem_append, List.mem_singleton, List.mem_cons]
      tauto

theorem pyDedup_nodup (l : List (ℤ × ℤ)) : (pyDedup l).Nodup :=
  (pyDedup_aux l [] List.nodup_nil).1

theorem pyDedup_mem (l : List (ℤ × ℤ)) (a : ℤ × ℤ) : a ∈ pyDedup l ↔ a ∈ l := by
  have h := (pyDedup_aux l [] List.nodup_nil).2 a
  simpa using h

theorem pyDedup_toFinset (l : List (ℤ × ℤ)) : (pyDedup l).toFinset = l.toFinset := by
  ext a
  simp [List.mem_toFinset, pyDedup_mem]

theorem foldl_guard_ok {α : Type} (c : Prop) [Decidable c] (hc : ¬ c) (t : α → ℝ) :
    ∀ (keys : List α) (s : ℝ),
    keys.foldl (fun acc xy => match acc with
      | Except.error e => Except.error e
      | Except.ok mi =>
        if c then Except.error PyError.zeroDivision else Except.ok (mi + t xy))
      (Except.ok s) = Except.ok (s + (keys.map t).sum) := by
  intro keys
  induction keys with
  | nil => intro s; simp
  | cons k ks ih =>
    intro s
    rw [List.foldl_cons]
    have hstep : (match (Except.ok s : Except PyError ℝ) with
        | Except.error e => Except.error e
        | Except.ok mi =>
          if c then Except.error PyError.zeroDivision else Except.ok (mi + t k))
        = Except.ok (s + t k) := by
      simp [hc]
    rw [hstep, ih (s + t k), List.map_cons, List.sum_cons]
    rw [add_assoc]

theorem empirical_mi_ok (pairs : List (ℤ × ℤ)) (h : pairs ≠ []) :
    empirical_mi pairs = Except.ok (mi_plug_in pairs) := by
  have hN : ¬ (pairs.length = 0) := by
    intro h0
    exact h (List.length_eq_zero.mp h0)
  have hfold := foldl_guard_ok (pairs.length = 0) hN
    (fun xy => ((pairs.count xy : ℝ) / (pairs.length : ℝ)) *
      Real.logb 2 (((pairs.count xy : ℝ) / (pairs.length : ℝ)) /
        ((((pairs.map Prod.fst).count xy.1 : ℝ) / (pairs.length : ℝ)) *
         (((pairs.map Prod.snd).count xy.2 : ℝ) / (pairs.length : ℝ)))))
    (pyDedup pairs) 0
  calc empirical_mi pairs
      = Except.ok (0 + ((pyDedup pairs).map
          (fun xy => ((pairs.count xy : ℝ) / (pairs.length : ℝ)) *
            Real.logb 2 (((pairs.count xy : ℝ) / (pairs.length : ℝ)) /
              ((((pairs.map Prod.fst).count xy.1 : ℝ) / (pairs.length : ℝ)) *
               (((pairs.map Prod.snd).count xy.2 : ℝ) / (pairs.length : ℝ)))))).sum) := hfold
    _ = Except.ok (mi_plug_in pairs) := by
        rw [zero_add, ← List.sum_toFinset _ (pyDedup_nodup pairs), pyDedup_toFinset]
        rfl

/-! ### Claim theorems -/

/-- C1: for every n ≥ 1, every grid of length n·n and the index map for size n,
canonicalization is orbit-invariant: the canonical representative of a grid
equals the canonical representative of its 90°-rotated image. -/
theorem claim_C1 (n : ℕ) (hn : 1 ≤ n) (g m : List ℕ) (hg : g.length = n * n)
    (hm : m = rotate90_indices n) :
    canonical_representative g n m = canonical_representative (rotate g n 1 m) n m := by
  subst hm
  have h1 : rotate g n 1 (rotate90_indices n) = apply_map g (rotate90_indices n) := rfl
  rw [h1, canonical_inv n hn g hg]

theorem claim_C1_witness :
    1 ≤ 2 ∧ ([1, 0, 0, 0] : List ℕ).length = 2 * 2 ∧
    canonical_representative [1, 0, 0, 0] 2 (rotate90_indices 2)
      = canonical_representative (rotate [1, 0, 0, 0] 2 1 (rotate90_indices 2)) 2
          (rotate90_indices 2) :=
  ⟨by decide, by decide, claim_C1 2 (by decide) [1, 0, 0, 0] (rotate90_indices 2) (by decide) rfl⟩

/-- C2: `rotate` applies the 90° map `k mod 4` times; in particular 4
applications return the input unchanged (4 mod 4 = 0) and 0 applications
return the input unchanged. -/
theorem claim_C2 (n k : ℕ) (hn : 1 ≤ n) (g m : List ℕ) (hg : g.length = n * n)
    (hm : m = rotate90_indices n) :
    rotate g n 4 m = g ∧ rotate g n 0 m = g ∧
    rotate g n k m = (fun v => apply_map v m)^[k % 4] g :=
  ⟨rfl, rfl, rfl⟩

theorem claim_C2_witness :
    1 ≤ 2 ∧ ([1, 0, 0, 0] : List ℕ).length = 2 * 2 ∧
    (rotate [1, 0, 0, 0] 2 4 (rotate90_indices 2) = [1, 0, 0, 0] ∧
     rotate [1, 0, 0, 0] 2 0 (rotate90_indices 2) = [1, 0, 0, 0] ∧
     rotate [1, 0, 0, 0] 2 7 (rotate90_indices 2)
       = (fun v => apply_map v (rotate90_indices 2))^[7 % 4] [1, 0, 0, 0]) :=
  ⟨by decide, by decide,
    claim_C2 2 7 (by decide) [1, 0, 0, 0] (rotate90_indices 2) (by decide) rfl⟩

/-- C3: for every n ≥ 1 and every binary grid of length n·n with the size-n
index map, the number of distinct integer encodings among the 4 successive
rotations is 1, 2 or 4 — never 3. -/
theorem claim_C3 (n : ℕ) (hn : 1 ≤ n) (g m : List ℕ) (hg : g.length = n * n)
    (hb : ∀ v ∈ g, v ≤ 1) (hm : m = rotate90_indices n) :
    orbit_size g n m = 1 ∨ orbit_size g n m = 2 ∨ orbit_size g n m = 4 := by
  subst hm
  exact orbit_dedup_cases n hn g _ _ _ hg hb rfl rfl rfl

theorem claim_C3_witness :
    1 ≤ 2 ∧ ([1, 0, 0, 0] : List ℕ).length = 2 * 2 ∧ (∀ v ∈ ([1, 0, 0, 0] : List ℕ), v ≤ 1) ∧
    (orbit_size [1, 0, 0, 0] 2 (rotate90_indices 2) = 1 ∨
     orbit_size [1, 0, 0, 0] 2 (rotate90_indices 2) = 2 ∨
     orbit_size [1, 0, 0, 0] 2 (rotate90_indices 2) = 4) :=
  ⟨by decide, by decide, by decide,
    claim_C3 2 (by decide) [1, 0, 0, 0] (rotate90_indices 2) (by decide) (by decide) rfl⟩

/-- C4: `rotate90_indices n` has length n·n, its entry at destination
position r·n + c is the source index (n-1-c)·n + r, every entry is below
n·n, and the whole map is a permutation of 0..n·n-1. -/
theorem claim_C4 (n r c : ℕ) (hn : 1 ≤ n) (hr : r < n) (hc : c < n) :
    (rotate90_indices n).length = n * n ∧
    (rotate90_indices n).getD (r * n + c) 0 = (n - 1 - c) * n + r ∧
    (∀ i ∈ rotate90_indices n, i < n * n) ∧
    (rotate90_indices n).Perm (List.range (n * n)) := by
  refine ⟨length_rotate90_indices n, ?_, ?_, rotate90_indices_perm n hn⟩
  · rw [rotate90_indices_eq n hn]
    rw [getD_map_range (n * n) (sfun n) 0 (rowcol_lt n hr hc)]
    exact sfun_rowcol n hn r c hc
  · intro i hi
    rw [rotate90_indices_eq n hn, List.mem_map] at hi
    obtain ⟨j, hj, rfl⟩ := hi
    exact sfun_lt n hn (List.mem_range.mp hj)

theorem claim_C4_witness :
    1 ≤ 2 ∧ 1 < 2 ∧ 0 < 2 ∧
    ((rotate90_indices 2).length = 2 * 2 ∧
     (rotate90_indices 2).getD (1 * 2 + 0) 0 = (2 - 1 - 0) * 2 + 1 ∧
     (∀ i ∈ rotate90_indices 2, i < 2 * 2) ∧
     (rotate90_indices 2).Perm (List.range (2 * 2))) :=
  ⟨by decide, by decide, by decide, claim_C4 2 1 0 (by decide) (by decide) (by decide)⟩

/-- C5: over any sequence of binary n·n grids, the orbit-restricted scan
never needs more evaluations than the raw scan; and when some sample has
cost 0, both evaluation counts are at least 1 and at most the number of
samples. -/
theorem claim_C5 (n : ℕ) (hn : 1 ≤ n) (samples : List (List ℕ))
    (hlen : ∀ g ∈ samples, g.length = n * n) (hbin : ∀ g ∈ samples, ∀ v ∈ g, v ≤ 1) :
    (brute_force_search samples n).2 ≤ (brute_force_search samples n).1 ∧
    ((∃ g ∈ samples, invariant_cost g n = 0) →
      1 ≤ (brute_force_search samples n).1 ∧
      (brute_force_search samples n).1 ≤ samples.length ∧
      1 ≤ (brute_force_search samples n).2 ∧
      (brute_force_search samples n).2 ≤ samples.length) := by
  have hbfs1 : (brute_force_search samples n).1 = raw_loop n samples none 0 := rfl
  have hbfs2 : (brute_force_search samples n).2
      = orbit_loop n (rotate90_indices n) samples [] none 0 := rfl
  constructor
  · rw [hbfs1, hbfs2]
    exact orbit_le_raw n hn samples hlen hbin [] none none 0 0
      (by intro s hs; simp at hs) (by intro b hb; simp at hb)
      (by intro b hb; simp at hb) le_rfl
  · rintro ⟨g0, hg0, hc0⟩
    have hne : samples ≠ [] := by
      intro h
      subst h
      simp at hg0
    have hraw : raw_loop n samples none 0 = 0 + rawCnt n samples :=
      raw_loop_eq n samples none 0 (by intro b hb; simp at hb)
    refine ⟨?_, ?_, ?_, ?_⟩
    · rw [hbfs1, hraw]
      have := rawCnt_pos n samples hne
      omega
    · rw [hbfs1, hraw]
      have := rawCnt_le n samples
      omega
    · rw [hbfs2]
      obtain ⟨x, rest, rfl⟩ := List.exists_cons_of_ne_nil hne
      exact orbit_loop_pos n (rotate90_indices n) x rest
    · rw [hbfs2]
      have := orbit_loop_le n (rotate90_indices n) samples [] none 0
      omega

theorem claim_C5_witness :
    1 ≤ 1 ∧ (∀ g ∈ ([[1], [0]] : List (List ℕ)), g.length = 1 * 1) ∧
    (∀ g ∈ ([[1], [0]] : List (List ℕ)), ∀ v ∈ g, v ≤ 1) ∧
    ((brute_force_search [[1], [0]] 1).2 ≤ (brute_force_search [[1], [0]] 1).1 ∧
     ((∃ g ∈ ([[1], [0]] : List (List ℕ)), invariant_cost g 1 = 0) →
       1 ≤ (brute_force_search [[1], [0]] 1).1 ∧
       (brute_force_search [[1], [0]] 1).1 ≤ ([[1], [0]] : List (List ℕ)).length ∧
       1 ≤ (brute_force_search [[1], [0]] 1).2 ∧
       (brute_force_search [[1], [0]] 1).2 ≤ ([[1], [0]] : List (List ℕ)).length)) :=
  ⟨by decide, by decide, by decide, claim_C5 1 (by decide) [[1], [0]] (by decide) (by decide)⟩

/-- C6: with a zero-length sample list, the compression estimator is not
rejected up front: the code builds and compresses both (empty) buffers and
then fails at the division by the sample count, for every compressor.  This
contradicts the specified contract that empty inputs are rejected before
that division. -/
theorem claim_C6 (compress : List ℕ → ℕ) (n : ℕ) (m : List ℕ) :
    sci_via_compression compress [] n m = Except.error PyError.zeroDivision := rfl

/-- C7: for every non-empty pair list, `empirical_mi` returns (without error)
the plug-in estimate: the sum over exactly the distinct observed pairs of
p(x,y)·log2(p(x,y)/(p(x)·p(y))) with empirical frequencies count/N. -/
theorem claim_C7 (pairs : List (ℤ × ℤ)) (h : pairs ≠ []) :
    empirical_mi pairs = Except.ok (mi_plug_in pairs) :=
  empirical_mi_ok pairs h

theorem claim_C7_witness :
    ([((0 : ℤ), (0 : ℤ))] : List (ℤ × ℤ)) ≠ [] ∧
    empirical_mi [((0 : ℤ), (0 : ℤ))] = Except.ok (mi_plug_in [((0 : ℤ), (0 : ℤ))]) :=
  ⟨by decide, claim_C7 [((0 : ℤ), (0 : ℤ))] (by decide)⟩

/-- C8: canonicalization is idempotent: canonicalizing a canonical
representative returns it unchanged. -/
theorem claim_C8 (n : ℕ) (hn : 1 ≤ n) (g m : List ℕ) (hg : g.length = n * n)
    (hm : m = rotate90_indices n) :
    canonical_representative (canonical_representative g n m) n m
      = canonical_representative g n m := by
  subst hm
  exact canonical_idem n hn g hg

theorem claim_C8_witness :
    1 ≤ 2 ∧ ([1, 0, 0, 0] : List ℕ).length = 2 * 2 ∧
    canonical_representative (canonical_representative [1, 0, 0, 0] 2 (rotate90_indices 2)) 2
        (rotate90_indices 2)
      = canonical_representative [1, 0, 0, 0] 2 (rotate90_indices 2) :=
  ⟨by decide, by decide, claim_C8 2 (by decide) [1, 0, 0, 0] (rotate90_indices 2) (by decide) rfl⟩

/-- C9: on fixed-length binary grids, Python tuple order agrees with the
big-endian integer encoding; the encoding is lossless; and the canonical
representative, chosen as the tuple-order minimum of the four rotations, is
one of the rotations and has the smallest integer encoding among them. -/
theorem claim_C9 (n : ℕ) (hn : 1 ≤ n) (a b g m : List ℕ)
    (ha : a.length = n * n) (hbl : b.length = n * n) (hg : g.length = n * n)
    (hab : ∀ v ∈ a, v ≤ 1) (hbb : ∀ v ∈ b, v ≤ 1) (hgb : ∀ v ∈ g, v ≤ 1)
    (hm : m = rotate90_indices n) :
    (lexLt a b = true ↔ bits_to_int a < bits_to_int b) ∧
    int_to_bits (bits_to_int g) (n * n) = g ∧
    (canonical_representative g n m = g ∨
     canonical_representative g n m = apply_map g m ∨
     canonical_representative g n m = apply_map (apply_map g m) m ∨
     canonical_representative g n m = apply_map (apply_map (apply_map g m) m) m) ∧
    bits_to_int (canonical_representative g n m) ≤ bits_to_int g ∧
    bits_to_int (canonical_representative g n m) ≤ bits_to_int (apply_map g m) ∧
    bits_to_int (canonical_representative g n m) ≤ bits_to_int (apply_map (apply_map g m) m) ∧
    bits_to_int (canonical_representative g n m)
      ≤ bits_to_int (apply_map (apply_map (apply_map g m) m) m) := by
  subst hm
  have hcl : (canonical_representative g n (rotate90_indices n)).length = n * n :=
    canonical_length n g hg
  have hcb : ∀ v ∈ canonical_representative g n (rotate90_indices n), v ≤ 1 :=
    canonical_binary g hgb n _
  have hnl := pyListMin_not_lt g
    [apply_map g (rotate90_indices n),
     apply_map (apply_map g (rotate90_indices n)) (rotate90_indices n),
     apply_map (apply_map (apply_map g (rotate90_indices n)) (rotate90_indices n))
       (rotate90_indices n)]
  have hle : ∀ cand : List ℕ, cand.length = n * n → (∀ v ∈ cand, v ≤ 1) →
      lexLt cand (canonical_representative g n (rotate90_indices n)) = false →
      bits_to_int (canonical_representative g n (rotate90_indices n)) ≤ bits_to_int cand := by
    intro cand hclen hcbin hflt
    rcases lexLt_total (canonical_representative g n (rotate90_indices n)) cand with h | h | h
    · exact le_of_lt ((lexLt_iff_bits_lt hcb hcbin (by rw [hcl, hclen])).mp h)
    · rw [h]
    · rw [hflt] at h
      exact absurd h Bool.false_ne_true
  have hl1 : (apply_map g (rotate90_indices n)).length = n * n := by
    rw [apply_map_length, length_rotate90_indices]
  have hl2 : (apply_map (apply_map g (rotate90_indices n)) (rotate90_indices n)).length
      = n * n := by
    rw [apply_map_length, length_rotate90_indices]
  have hl3 : (apply_map (apply_map (apply_map g (rotate90_indices n)) (rotate90_indices n))
      (rotate90_indices n)).length = n * n := by
    rw [apply_map_length, length_rotate90_indices]
  have hb1 : ∀ v ∈ apply_map g (rotate90_indices n), v ≤ 1 := apply_map_binary hgb _
  have hb2 : ∀ v ∈ apply_map (apply_map g (rotate90_indices n)) (rotate90_indices n), v ≤ 1 :=
    apply_map_binary hb1 _
  have hb3 : ∀ v ∈ apply_map (apply_map (apply_map g (rotate90_indices n))
      (rotate90_indices n)) (rotate90_indices n), v ≤ 1 :=
    apply_map_binary hb2 _
  refine ⟨lexLt_iff_bits_lt hab hbb (by rw [ha, hbl]), ?_,
    canonical_representative_mem g n _,
    hle g hg hgb (hnl g (List.mem_cons_self _ _)),
    hle _ hl1 hb1 (hnl _ (by simp)),
    hle _ hl2 hb2 (hnl _ (by simp)),
    hle _ hl3 hb3 (hnl _ (by simp))⟩
  have h := int_to_bits_roundtrip g hgb
  rw [hg] at h
  exact h

theorem claim_C9_witness :
    1 ≤ 1 ∧ ([0] : List ℕ).length = 1 * 1 ∧ ([1] : List ℕ).length = 1 * 1 ∧
    ([1] : List ℕ).length = 1 * 1 ∧
    (∀ v ∈ ([0] : List ℕ), v ≤ 1) ∧ (∀ v ∈ ([1] : List ℕ), v ≤ 1) ∧
    (∀ v ∈ ([1] : List ℕ), v ≤ 1) ∧
    ((lexLt [0] [1] = true ↔ bits_to_int [0] < bits_to_int [1]) ∧
     int_to_bits (bits_to_int [1]) (1 * 1) = [1] ∧
     (canonical_representative [1] 1 (rotate90_indices 1) = [1] ∨
      canonical_representative [1] 1 (rotate90_indices 1)
        = apply_map [1] (rotate90_indices 1) ∨
      canonical_representative [1] 1 (rotate90_indices 1)
        = apply_map (apply_map [1] (rotate90_indices 1)) (rotate90_indices 1) ∨
      canonical_representative [1] 1 (rotate90_indices 1)
        = apply_map (apply_map (apply_map [1] (rotate90_indices 1)) (rotate90_indices 1))
            (rotate90_indices 1)) ∧
     bits_to_int (canonical_representative [1] 1 (rotate90_indices 1)) ≤ bits_to_int [1] ∧
     bits_to_int (canonical_representative [1] 1 (rotate90_indices 1))
       ≤ bits_to_int (apply_map [1] (rotate90_indices 1)) ∧
     bits_to_int (canonical_representative [1] 1 (rotate90_indices 1))
       ≤ bits_to_int (apply_map (apply_map [1] (rotate90_indices 1)) (rotate90_indices 1)) ∧
     bits_to_int (canonical_representative [1] 1 (rotate90_indices 1))
       ≤ bits_to_int (apply_map (apply_map (apply_map [1] (rotate90_indices 1))
           (rotate90_indices 1)) (rotate90_indices 1))) :=
  ⟨by decide, by decide, by decide, by decide, by decide, by decide, by decide,
    claim_C9 1 (by decide) [0] [1] [1] (rotate90_indices 1) (by decide) (by decide) (by decide)
      (by decide) (by decide) (by decide) rfl⟩

/-- C10: called on the empty pair list, `empirical_mi` returns 0.0 without
raising: the division by N sits inside the loop over observed pairs, which
is empty, so no division is executed. -/
theorem claim_C10 : empirical_mi ([] : List (ℤ × ℤ)) = Except.ok (0 : ℝ) := rfl

end CST
